import Mathlib

/-!
# Verification of the preset-store module (`tools/preset_editor/modules/json_manager.py`)

This file gives a shallow embedding of the `JsonManager` class and proves
properties of it.  The embedding is pure:

* Python dicts are insertion-ordered association lists `List (String × J)`;
  this matches CPython's guaranteed key insertion order.  Assigning to an
  existing key keeps its position, assigning a fresh key appends at the end,
  `del`/`pop` remove the entry.
* `copy.deepcopy` of a value is the value itself (pure values have no
  aliasing); the one claim that is *about* aliasing (deep-copy-on-read) is
  settled on a separate reference-level model further down.
* Disk writes (`save`, autosave) and the change-notification callbacks do not
  read or modify any of the store's fields, so they are omitted.
* Operations that would raise a `TypeError` in Python (the JSON file stored a
  non-object under the collection's top-level key and the method then indexes
  into it) are modelled as `Option` failures (`none`).  No claim concerns
  states where an exception escapes.
-/

/-- JSON-compatible value trees, the entry values of the store
(`json.load` results).  Numbers are modelled as integers: no claim in this
development depends on numeric semantics, only on values being opaque trees
that can be compared for (deep) equality. -/
inductive J where
  | null : J
  | bool (b : Bool) : J
  | num (n : Int) : J
  | str (s : String) : J
  | arr (elems : List J) : J
  | obj (fields : List (String × J)) : J

/-- A Python dict with string keys and JSON values, in insertion order. -/
abbrev Obj := List (String × J)

/-- Python truthiness (`bool(v)`) of a JSON value, as used by
`if not self.transition_data`, `if not presets`, etc. -/
def J.truthy : J → Bool
  | .null => false
  | .bool b => b
  | .num n => n != 0
  | .str s => s != ""
  | .arr elems => !elems.isEmpty
  | .obj fields => !fields.isEmpty

/-- The keys of a dict, in order (`dict.keys()`). -/
def keysOf (o : Obj) : List String := o.map Prod.fst

/-- Python `k in d` for a dict. -/
def containsKey (o : Obj) (k : String) : Bool := o.any (fun p => p.1 == k)

/-- Python `d[k]` / `d.get(k)`: the value stored under `k`, if any. -/
def getVal? (o : Obj) (k : String) : Option J :=
  (o.find? (fun p => p.1 == k)).map Prod.snd

/-- Python `d.get(k, default)`. -/
def getValD (o : Obj) (k : String) (d : J) : J := (getVal? o k).getD d

/-- Python `d[k] = v`: update in place when the key exists (keeping its
position), otherwise append at the end. -/
def setKey (o : Obj) (k : String) (v : J) : Obj :=
  if containsKey o k then o.map (fun p => if p.1 == k then (k, v) else p)
  else o ++ [(k, v)]

/-- Python `del d[k]` / the removal part of `d.pop(k)`.  (On the dicts the
store manipulates, keys are unique, so filtering equals removing the single
entry.) -/
def eraseKey (o : Obj) (k : String) : Obj := o.filter (fun p => p.1 != k)

/-- Python `s.startswith(pre)`.  Defined on the underlying character list so
that it evaluates inside the kernel (`String.startsWith` is backed by
compiled code and does not reduce definitionally). -/
def strStartsWith (s pre : String) : Bool := s.data.take pre.data.length == pre.data

/-- `UndoState` (json_manager.py lines 15-20): snapshot of the JSON data for
undo/redo.  The `copy.deepcopy` calls that build these in the source are the
identity on pure values. -/
structure UndoState where
  transition_data : Obj
  shader_data : Obj
  description : String

/-- The mutable fields of a `JsonManager` instance (json_manager.py lines
36-47).  `_auto_save` and `_on_change_callbacks` are omitted: saving and
notifying never read or write the fields modelled here. -/
structure Store where
  transition_path : String
  shader_path : String
  transition_data : Obj
  shader_data : Obj
  undo_stack : List UndoState
  redo_stack : List UndoState

/-- `JsonManager.__init__`. -/
def initStore : Store :=
  { transition_path := ""
    shader_path := ""
    transition_data := []
    shader_data := []
    undo_stack := []
    redo_stack := [] }

/-- `JsonManager.set_paths`. -/
def set_paths (s : Store) (transition_path shader_path : String) : Store :=
  { s with transition_path := transition_path, shader_path := shader_path }

/-- `JsonManager.MAX_UNDO_LEVELS`. -/
def MAX_UNDO_LEVELS : Nat := 50

/-- `JsonManager.push_undo` (lines 118-132): append a snapshot of the current
state, drop the oldest entry (`pop(0)`) if the stack exceeds
`MAX_UNDO_LEVELS`, clear the redo stack. -/
def push_undo (s : Store) (description : String) : Store :=
  let st : UndoState :=
    { transition_data := s.transition_data
      shader_data := s.shader_data
      description := description }
  let stack := s.undo_stack ++ [st]
  let stack := if stack.length > MAX_UNDO_LEVELS then stack.tail else stack
  { s with undo_stack := stack, redo_stack := [] }

/-- `JsonManager.undo` (lines 134-155).  Python appends/pops at the *end* of
the list, so the top of the stack is the last element.  The returned `Bool`
is the method's return value. -/
def undo (s : Store) : Store × Bool :=
  match s.undo_stack.getLast? with
  | none => (s, false)
  | some prev =>
      let current : UndoState :=
        { transition_data := s.transition_data
          shader_data := s.shader_data
          description := "" }
      ({ s with
          transition_data := prev.transition_data
          shader_data := prev.shader_data
          undo_stack := s.undo_stack.dropLast
          redo_stack := s.redo_stack ++ [current] }, true)

/-- `JsonManager.redo` (lines 157-178), symmetric to `undo`. -/
def redo (s : Store) : Store × Bool :=
  match s.redo_stack.getLast? with
  | none => (s, false)
  | some next_state =>
      let current : UndoState :=
        { transition_data := s.transition_data
          shader_data := s.shader_data
          description := "" }
      ({ s with
          transition_data := next_state.transition_data
          shader_data := next_state.shader_data
          undo_stack := s.undo_stack ++ [current]
          redo_stack := s.redo_stack.dropLast }, true)

/-! ## Loading

`load` reads two files from disk.  The file system is modelled as a function
from paths to one of three outcomes, matching the three branches of
`_load_json`'s exception handling (found-and-parsed, `FileNotFoundError`,
`json.JSONDecodeError`/other errors). -/

/-- Outcome of opening and parsing one file. -/
inductive FileResult where
  | missing : FileResult
  | invalid : FileResult
  | parsed (v : J) : FileResult

/-- `JsonManager._load_json` (lines 75-88): the parsed value on success, `{}`
on `FileNotFoundError` or any parse error. -/
def _load_json (fs : String → FileResult) (filepath : String) : J :=
  match fs filepath with
  | .parsed v => v
  | _ => J.obj []

/-- The store's data field after `_load_json`: the source assigns the result
(an arbitrary JSON value) to a field used as a dict; we keep the raw value's
object fields when it is an object and record the raw value's truthiness
separately in `load`. -/
def loadedObj (v : J) : Obj :=
  match v with
  | .obj fields => fields
  | _ => []

/-- `JsonManager.load` (lines 54-73): for each non-empty path, replace that
collection with the parse result; `success` becomes `False` whenever the
freshly loaded value is falsy (`if not self.transition_data`).  Clears both
stacks.  The function is total: `load` never raises. -/
def load (fs : String → FileResult) (s : Store) : Store × Bool :=
  let tLoaded := _load_json fs s.transition_path
  let sLoaded := _load_json fs s.shader_path
  let td := if s.transition_path != "" then loadedObj tLoaded else s.transition_data
  let okT := if s.transition_path != "" then tLoaded.truthy else true
  let sd := if s.shader_path != "" then loadedObj sLoaded else s.shader_data
  let okS := if s.shader_path != "" then sLoaded.truthy else true
  ({ s with
      transition_data := td
      shader_data := sd
      undo_stack := []
      redo_stack := [] }, okT && okS)

/-! ## Per-collection operations

The transition methods (lines 200-341) and the shader methods (lines
347-484) of the source are textually identical except for the data field
(`transition_data` vs `shader_data`), the top-level JSON key (`"presets"` vs
`"shader_presets"`) and the noun used in undo descriptions.  They are
embedded once, parameterised by that difference, with `abbrev`s recovering
the source's names. -/

/-- Which of the two collections a method family operates on. -/
inductive Side where
  | transitions : Side
  | shaders : Side

/-- The top-level JSON key of the collection (`"presets"` /
`"shader_presets"`). -/
def Side.key : Side → String
  | .transitions => "presets"
  | .shaders => "shader_presets"

/-- The noun interpolated into undo descriptions (`f"Edit transition: …"` /
`f"Edit shader: …"`). -/
def Side.noun : Side → String
  | .transitions => "transition"
  | .shaders => "shader"

/-- The data field the side's methods read (`self.transition_data` /
`self.shader_data`). -/
def Store.dataOf (s : Store) : Side → Obj
  | .transitions => s.transition_data
  | .shaders => s.shader_data

/-- Assignment to the side's data field. -/
def Store.withData (s : Store) : Side → Obj → Store
  | .transitions, o => { s with transition_data := o }
  | .shaders, o => { s with shader_data := o }

/-- `get_transition_names` / `get_shader_names` (lines 200-205 / 347-352):
`presets = data.get(key, {})`; empty/falsy presets give `[]`; otherwise the
keys that are non-empty and do not start with `"_"`, in order.  `none` models
the `TypeError` Python raises when the stored value is truthy but has no
`.keys()`. -/
def get_preset_names (side : Side) (s : Store) : Option (List String) :=
  let presets := getValD (s.dataOf side) side.key (J.obj [])
  if presets.truthy = false then some []
  else
    match presets with
    | J.obj fields =>
        some ((fields.map Prod.fst).filter (fun k => k != "" && !(strStartsWith k "_")))
    | _ => none

/-- `get_transition` / `get_shader` (lines 207-209 / 354-356) at the value
level: `data.get(key, {}).get(name)`.  (The *reference*-level behaviour of
this accessor — what the caller can do with the returned object — is
modelled separately below for the deep-copy-on-read claim.) -/
def get_preset (side : Side) (s : Store) (name : String) : Option J :=
  match getValD (s.dataOf side) side.key (J.obj []) with
  | J.obj presets => getVal? presets name
  | _ => none

/-- Shared body of `set_transition`/`add_transition` (and the shader
versions) after their `push_undo`: ensure the top-level key exists, then
assign `data[key][name] = value`.  `none` is the `TypeError` when the stored
top-level value is not an object. -/
def assign_preset (side : Side) (s1 : Store) (name : String) (data : J) : Option Store :=
  let base :=
    if containsKey (s1.dataOf side) side.key then s1.dataOf side
    else setKey (s1.dataOf side) side.key (J.obj [])
  match getVal? base side.key with
  | some (J.obj presets) =>
      some (s1.withData side (setKey base side.key (J.obj (setKey presets name data))))
  | _ => none

/-- `set_transition` / `set_shader` (lines 211-223 / 358-370). -/
def set_preset (side : Side) (s : Store) (name : String) (data : J)
    (pushUndo : Bool) : Option Store :=
  let s1 := if pushUndo then push_undo s ("Edit " ++ side.noun ++ ": " ++ name) else s
  assign_preset side s1 name data

/-- `add_transition` / `add_shader` (lines 225-236 / 372-383): like `set`
but always records undo. -/
def add_preset (side : Side) (s : Store) (name : String) (data : J) : Option Store :=
  let s1 := push_undo s ("Add " ++ side.noun ++ ": " ++ name)
  assign_preset side s1 name data

/-- `delete_transition` / `delete_shader` (lines 238-246 / 385-393).  The
Python method returns `None`; the `Bool` here records whether the delete
branch ran (`name in data.get(key, {})`), which the source observes only
through its effects (undo push, deletion). -/
def delete_preset (side : Side) (s : Store) (name : String) : Option (Store × Bool) :=
  match getValD (s.dataOf side) side.key (J.obj []) with
  | J.obj presets =>
      if containsKey presets name then
        let s1 := push_undo s ("Delete " ++ side.noun ++ ": " ++ name)
        some (s1.withData side
          (setKey (s1.dataOf side) side.key (J.obj (eraseKey presets name))), true)
      else some (s, false)
  | _ => none

/-- `delete_transitions` / `delete_shaders` (lines 248-261 / 395-408):
early-return on an empty list, otherwise one combined undo push followed by
per-name conditional deletion.  The `Bool` records whether the mutating path
(push + loop) ran. -/
def delete_presets (side : Side) (s : Store) (names : List String) :
    Option (Store × Bool) :=
  if names.isEmpty then some (s, false)
  else
    let s1 := push_undo s ("Delete " ++ Nat.repr names.length ++ " " ++ side.noun ++ "s")
    (names.foldlM (fun (st : Store) name =>
      match getValD (st.dataOf side) side.key (J.obj []) with
      | J.obj presets =>
          if containsKey presets name then
            some (st.withData side
              (setKey (st.dataOf side) side.key (J.obj (eraseKey presets name))))
          else some st
      | _ => none) s1).map (fun st => (st, true))

/-- `rename_transition` / `rename_shader` (lines 263-276 / 410-423):
`presets[new_name] = presets.pop(old_name)` after the two-sided existence
guard.  The `Bool` is the method's return value. -/
def rename_preset (side : Side) (s : Store) (old_name new_name : String) :
    Option (Store × Bool) :=
  match getValD (s.dataOf side) side.key (J.obj []) with
  | J.obj presets =>
      if !containsKey presets old_name || containsKey presets new_name then
        some (s, false)
      else
        let s1 := push_undo s
          ("Rename " ++ side.noun ++ ": " ++ old_name ++ " -> " ++ new_name)
        let v := getValD presets old_name J.null
        let presets2 := setKey (eraseKey presets old_name) new_name v
        some (s1.withData side (setKey (s1.dataOf side) side.key (J.obj presets2)), true)
  | _ => none

/-- `duplicate_transition` / `duplicate_shader` (lines 278-291 / 425-438):
only the *source* name is checked; `presets[new_name] =
copy.deepcopy(presets[name])` then assigns (deep copy = identity on pure
values).  The `Bool` is the method's return value. -/
def duplicate_preset (side : Side) (s : Store) (name new_name : String) :
    Option (Store × Bool) :=
  match getValD (s.dataOf side) side.key (J.obj []) with
  | J.obj presets =>
      if !containsKey presets name then some (s, false)
      else
        let s1 := push_undo s ("Duplicate " ++ side.noun ++ ": " ++ name)
        let presets2 := setKey presets new_name (getValD presets name J.null)
        some (s1.withData side (setKey (s1.dataOf side) side.key (J.obj presets2)), true)
  | _ => none

/-- `_reorder_transitions` / `_reorder_shaders` (lines 326-341 / 469-484):
rebuild the presets dict with the `_`-prefixed comment keys first (in their
original relative order) followed by the entries of `new_order` that exist,
in that order. -/
def reorder_presets (old_presets : Obj) (new_order : List String) : Obj :=
  let withComments :=
    old_presets.foldl
      (fun acc p => if strStartsWith p.1 "_" then setKey acc p.1 p.2 else acc)
      ([] : Obj)
  new_order.foldl
    (fun acc n =>
      match getVal? old_presets n with
      | some v => setKey acc n v
      | none => acc)
    withComments

/-- `move_transition` / `move_shader` (lines 293-324 / 440-467): compute the
new non-comment name order (Python evaluates both right-hand sides of a swap
before assigning), then push undo and rebuild via the reorder helper.  The
`Bool` is the method's return value. -/
def move_preset (side : Side) (s : Store) (name direction : String) :
    Option (Store × Bool) :=
  match get_preset_names side s with
  | none => none
  | some names =>
      if names.contains name = false then some (s, false)
      else
        let idx := names.indexOf name
        let newOrder? : Option (List String) :=
          if direction == "top" && decide (idx > 0) then
            some (name :: names.erase name)
          else if direction == "up" && decide (idx > 0) then
            some ((names.set idx (names.getD (idx - 1) "")).set (idx - 1) (names.getD idx ""))
          else if direction == "down" && decide (idx < names.length - 1) then
            some ((names.set idx (names.getD (idx + 1) "")).set (idx + 1) (names.getD idx ""))
          else if direction == "bottom" && decide (idx < names.length - 1) then
            some (names.erase name ++ [name])
          else none
        match newOrder? with
        | none => some (s, false)
        | some newOrder =>
            let s1 := push_undo s
              ("Move " ++ side.noun ++ " " ++ direction ++ ": " ++ name)
            match getVal? (s1.dataOf side) side.key with
            | some (J.obj old_presets) =>
                some (s1.withData side
                  (setKey (s1.dataOf side) side.key
                    (J.obj (reorder_presets old_presets newOrder))), true)
            | _ => none

/-- The `while name in existing` loop of `get_unique_transition_name` /
`get_unique_shader_name`, with explicit fuel.  The loop terminates because
the candidates `base`, `base_1`, `base_2`, … are pairwise distinct strings
while `existing` is finite, so `existing.length + 1` iterations always
suffice; this is proved below (`uniqueNameLoop_found`). -/
def uniqueNameLoop (existing : List String) (base : String) :
    Nat → String → Nat → String
  | 0, name, _ => name
  | fuel + 1, name, counter =>
      if existing.contains name then
        uniqueNameLoop existing base fuel (base ++ "_" ++ Nat.repr counter) (counter + 1)
      else name

/-- `get_unique_transition_name` / `get_unique_shader_name` (lines 506-514 /
516-524): start from `base` with `counter = 1` and return the first
candidate not in the existing non-comment names. -/
def get_unique_preset_name (side : Side) (s : Store) (base : String) : Option String :=
  (get_preset_names side s).map
    (fun existing => uniqueNameLoop existing base (existing.length + 1) base 1)

/-! Source-named entry points for the two sides. -/

abbrev get_transition_names (s : Store) : Option (List String) :=
  get_preset_names Side.transitions s
abbrev get_shader_names (s : Store) : Option (List String) :=
  get_preset_names Side.shaders s
abbrev get_transition (s : Store) (name : String) : Option J :=
  get_preset Side.transitions s name
abbrev get_shader (s : Store) (name : String) : Option J :=
  get_preset Side.shaders s name
abbrev set_transition (s : Store) (name : String) (data : J) (pushUndo : Bool) :
    Option Store :=
  set_preset Side.transitions s name data pushUndo
abbrev set_shader (s : Store) (name : String) (data : J) (pushUndo : Bool) :
    Option Store :=
  set_preset Side.shaders s name data pushUndo
abbrev add_transition (s : Store) (name : String) (data : J) : Option Store :=
  add_preset Side.transitions s name data
abbrev add_shader (s : Store) (name : String) (data : J) : Option Store :=
  add_preset Side.shaders s name data
abbrev delete_transition (s : Store) (name : String) : Option (Store × Bool) :=
  delete_preset Side.transitions s name
abbrev delete_shader (s : Store) (name : String) : Option (Store × Bool) :=
  delete_preset Side.shaders s name
abbrev delete_transitions (s : Store) (names : List String) : Option (Store × Bool) :=
  delete_presets Side.transitions s names
abbrev delete_shaders (s : Store) (names : List String) : Option (Store × Bool) :=
  delete_presets Side.shaders s names
abbrev rename_transition (s : Store) (old_name new_name : String) :
    Option (Store × Bool) :=
  rename_preset Side.transitions s old_name new_name
abbrev rename_shader (s : Store) (old_name new_name : String) :
    Option (Store × Bool) :=
  rename_preset Side.shaders s old_name new_name
abbrev duplicate_transition (s : Store) (name new_name : String) :
    Option (Store × Bool) :=
  duplicate_preset Side.transitions s name new_name
abbrev duplicate_shader (s : Store) (name new_name : String) :
    Option (Store × Bool) :=
  duplicate_preset Side.shaders s name new_name
abbrev move_transition (s : Store) (name direction : String) :
    Option (Store × Bool) :=
  move_preset Side.transitions s name direction
abbrev move_shader (s : Store) (name direction : String) :
    Option (Store × Bool) :=
  move_preset Side.shaders s name direction
abbrev get_unique_transition_name (s : Store) (base : String) : Option String :=
  get_unique_preset_name Side.transitions s base
abbrev get_unique_shader_name (s : Store) (base : String) : Option String :=
  get_unique_preset_name Side.shaders s base

/-! ## The mutating operations as a single step -/

/-- A public mutating CRUD call on one collection (undo/redo excluded).
`setOp` is the ordinary-edit form of `set_transition`/`set_shader`, i.e.
with the source's default `push_undo=True`; the spec reserves
`push_undo=False` for internal restoration and no caller in the repository
passes it. -/
inductive OpKind where
  | setOp (name : String) (data : J) : OpKind
  | addOp (name : String) (data : J) : OpKind
  | deleteOp (name : String) : OpKind
  | deleteManyOp (names : List String) : OpKind
  | renameOp (old_name new_name : String) : OpKind
  | duplicateOp (name new_name : String) : OpKind
  | moveOp (name direction : String) : OpKind

/-- `applyOp side k s = some s'` exactly when the call takes its mutating
path: it pushes an undo snapshot and performs its collection update
(returning `True` where the source returns a flag).  `none` covers the
failure/no-op returns (absent name, conflict guard, boundary move, empty
batch) and ill-shaped states. -/
def applyOp (side : Side) (k : OpKind) (s : Store) : Option Store :=
  match k with
  | .setOp name data => set_preset side s name data true
  | .addOp name data => add_preset side s name data
  | .deleteOp name =>
      match delete_preset side s name with
      | some (s', true) => some s'
      | _ => none
  | .deleteManyOp names =>
      match delete_presets side s names with
      | some (s', true) => some s'
      | _ => none
  | .renameOp old_name new_name =>
      match rename_preset side s old_name new_name with
      | some (s', true) => some s'
      | _ => none
  | .duplicateOp name new_name =>
      match duplicate_preset side s name new_name with
      | some (s', true) => some s'
      | _ => none
  | .moveOp name direction =>
      match move_preset side s name direction with
      | some (s', true) => some s'
      | _ => none

/-! Small field lemmas about `withData` and `push_undo`. -/

theorem withData_undo_stack (s : Store) (side : Side) (o : Obj) :
    (s.withData side o).undo_stack = s.undo_stack := by
  cases side <;> rfl

theorem withData_redo_stack (s : Store) (side : Side) (o : Obj) :
    (s.withData side o).redo_stack = s.redo_stack := by
  cases side <;> rfl

theorem withData_shaders_transition_data (s : Store) (o : Obj) :
    (s.withData Side.shaders o).transition_data = s.transition_data := rfl

theorem withData_dataOf_self (s : Store) (side : Side) :
    s.withData side (s.dataOf side) = s := by
  cases side <;> rfl

theorem withData_withData (s : Store) (side : Side) (o o' : Obj) :
    (s.withData side o).withData side o' = s.withData side o' := by
  cases side <;> rfl

theorem push_undo_transition_data (s : Store) (d : String) :
    (push_undo s d).transition_data = s.transition_data := rfl

theorem push_undo_shader_data (s : Store) (d : String) :
    (push_undo s d).shader_data = s.shader_data := rfl

theorem push_undo_redo_stack (s : Store) (d : String) :
    (push_undo s d).redo_stack = [] := rfl

/-- The snapshot `push_undo` appends. -/
def snapOf (s : Store) (description : String) : UndoState :=
  { transition_data := s.transition_data
    shader_data := s.shader_data
    description := description }

theorem push_undo_undo_stack (s : Store) (d : String) :
    (push_undo s d).undo_stack =
      (if (s.undo_stack ++ [snapOf s d]).length > MAX_UNDO_LEVELS
       then (s.undo_stack ++ [snapOf s d]).tail
       else s.undo_stack ++ [snapOf s d]) := rfl

/-- Appending then (possibly) dropping the oldest entry keeps the new
element on top of the stack. -/
theorem getLast?_append_trim (l : List UndoState) (x : UndoState) :
    (if (l ++ [x]).length > MAX_UNDO_LEVELS then (l ++ [x]).tail
     else l ++ [x]).getLast? = some x := by
  by_cases h : (l ++ [x]).length > MAX_UNDO_LEVELS
  · rw [if_pos h]
    cases l with
    | nil => simp [MAX_UNDO_LEVELS] at h
    | cons a as => simp [List.getLast?_concat]
  · rw [if_neg h]
    exact List.getLast?_concat _

/-! ## Structure of a successful mutating operation -/

/-- The description string each operation passes to `push_undo`. -/
def opDesc (side : Side) (k : OpKind) : String :=
  match k with
  | .setOp name _ => "Edit " ++ side.noun ++ ": " ++ name
  | .addOp name _ => "Add " ++ side.noun ++ ": " ++ name
  | .deleteOp name => "Delete " ++ side.noun ++ ": " ++ name
  | .deleteManyOp names => "Delete " ++ Nat.repr names.length ++ " " ++ side.noun ++ "s"
  | .renameOp old_name new_name => "Rename " ++ side.noun ++ ": " ++ old_name ++ " -> " ++ new_name
  | .duplicateOp name _ => "Duplicate " ++ side.noun ++ ": " ++ name
  | .moveOp name direction => "Move " ++ side.noun ++ " " ++ direction ++ ": " ++ name


theorem set_preset_true (side : Side) (s : Store) (name : String) (data : J) :
    set_preset side s name data true =
      assign_preset side (push_undo s ("Edit " ++ side.noun ++ ": " ++ name)) name data := rfl

theorem assign_preset_eq {side : Side} {s1 : Store} {name : String} {data : J}
    {s2 : Store} (h : assign_preset side s1 name data = some s2) :
    ∃ o, s2 = s1.withData side o := by
  simp only [assign_preset] at h
  repeat' split at h
  all_goals first
    | exact Option.noConfusion h
    | exact ⟨_, (Option.some.inj h).symm⟩

theorem delete_presets_fold_eq {side : Side} :
    ∀ (names : List String) (s1 st : Store),
      names.foldlM (fun (st : Store) name =>
        match getValD (st.dataOf side) side.key (J.obj []) with
        | J.obj presets =>
            if containsKey presets name then
              some (st.withData side
                (setKey (st.dataOf side) side.key (J.obj (eraseKey presets name))))
            else some st
        | _ => none) s1 = some st →
      ∃ o, st = s1.withData side o := by
  intro names
  induction names with
  | nil =>
      intro s1 st h
      simp only [List.foldlM_nil, Option.pure_def, Option.some.injEq] at h
      subst h
      exact ⟨s1.dataOf side, (withData_dataOf_self s1 side).symm⟩
  | cons a as ih =>
      intro s1 st h
      simp only [List.foldlM_cons] at h
      rcases h2 : (match getValD (s1.dataOf side) side.key (J.obj []) with
        | J.obj presets =>
            if containsKey presets a then
              some (s1.withData side
                (setKey (s1.dataOf side) side.key (J.obj (eraseKey presets a))))
            else some s1
        | _ => none) with _ | s2
      · rw [h2] at h
        exact Option.noConfusion h
      · rw [h2] at h
        have h' : as.foldlM _ s2 = some st := h
        obtain ⟨o, rfl⟩ := ih s2 st h'
        have hcase : s2 = s1 ∨ ∃ o', s2 = s1.withData side o' := by
          revert h2
          split
          · intro h2
            split at h2
            · exact Or.inr ⟨_, (Option.some.inj h2).symm⟩
            · exact Or.inl (Option.some.inj h2).symm
          · intro h2
            exact Option.noConfusion h2
        rcases hcase with rfl | ⟨o', rfl⟩
        · exact ⟨o, rfl⟩
        · exact ⟨o, by rw [withData_withData]⟩

/-- Every successful mutating operation is `push_undo` (with the operation's
description) followed by one assignment to the operated side's data field. -/
theorem applyOp_structure {side : Side} {k : OpKind} {s s' : Store}
    (h : applyOp side k s = some s') :
    ∃ o, s' = (push_undo s (opDesc side k)).withData side o := by
  cases k with
  | setOp name data =>
      simp only [applyOp, set_preset_true] at h
      obtain ⟨o, ho⟩ := assign_preset_eq h
      exact ⟨o, ho⟩
  | addOp name data =>
      simp only [applyOp, add_preset] at h
      obtain ⟨o, ho⟩ := assign_preset_eq h
      exact ⟨o, ho⟩
  | deleteOp name =>
      simp only [applyOp] at h
      split at h
      · rename_i s2 heq
        cases Option.some.inj h
        simp only [delete_preset] at heq
        repeat' split at heq
        all_goals first
          | exact Option.noConfusion heq
          | exact absurd (congrArg Prod.snd (Option.some.inj heq)) Bool.false_ne_true
          | exact ⟨_, (congrArg Prod.fst (Option.some.inj heq)).symm⟩
      · exact Option.noConfusion h
  | deleteManyOp names =>
      simp only [applyOp] at h
      split at h
      · rename_i s2 heq
        cases Option.some.inj h
        simp only [delete_presets] at heq
        split at heq
        · exact absurd (congrArg Prod.snd (Option.some.inj heq)) Bool.false_ne_true
        · rcases Option.map_eq_some'.mp heq with ⟨st, hst, hpair⟩
          obtain ⟨o, ho⟩ := delete_presets_fold_eq names _ st hst
          exact ⟨o, (congrArg Prod.fst hpair).symm.trans ho⟩
      · exact Option.noConfusion h
  | renameOp old_name new_name =>
      simp only [applyOp] at h
      split at h
      · rename_i s2 heq
        cases Option.some.inj h
        simp only [rename_preset] at heq
        repeat' split at heq
        all_goals first
          | exact Option.noConfusion heq
          | exact absurd (congrArg Prod.snd (Option.some.inj heq)) Bool.false_ne_true
          | exact ⟨_, (congrArg Prod.fst (Option.some.inj heq)).symm⟩
      · exact Option.noConfusion h
  | duplicateOp name new_name =>
      simp only [applyOp] at h
      split at h
      · rename_i s2 heq
        cases Option.some.inj h
        simp only [duplicate_preset] at heq
        repeat' split at heq
        all_goals first
          | exact Option.noConfusion heq
          | exact absurd (congrArg Prod.snd (Option.some.inj heq)) Bool.false_ne_true
          | exact ⟨_, (congrArg Prod.fst (Option.some.inj heq)).symm⟩
      · exact Option.noConfusion h
  | moveOp name direction =>
      simp only [applyOp] at h
      split at h
      · rename_i s2 heq
        cases Option.some.inj h
        simp only [move_preset] at heq
        repeat' split at heq
        all_goals first
          | exact Option.noConfusion heq
          | exact absurd (congrArg Prod.snd (Option.some.inj heq)) Bool.false_ne_true
          | exact ⟨_, (congrArg Prod.fst (Option.some.inj heq)).symm⟩
      · exact Option.noConfusion h

/-! ## Undo and redo after a successful mutating operation -/

theorem undo_after {s1 : Store} {prev : UndoState}
    (hU : s1.undo_stack.getLast? = some prev) :
    undo s1 =
      ({ s1 with
          transition_data := prev.transition_data
          shader_data := prev.shader_data
          undo_stack := s1.undo_stack.dropLast
          redo_stack := s1.redo_stack ++ [snapOf s1 ""] }, true) := by
  unfold undo
  rw [hU]
  rfl

theorem redo_after {s1 : Store} {nxt : UndoState}
    (hR : s1.redo_stack.getLast? = some nxt) :
    redo s1 =
      ({ s1 with
          transition_data := nxt.transition_data
          shader_data := nxt.shader_data
          undo_stack := s1.undo_stack ++ [snapOf s1 ""]
          redo_stack := s1.redo_stack.dropLast }, true) := by
  unfold redo
  rw [hR]
  rfl

/-- After any successful mutating operation, `undo()` succeeds and restores
both collections to their pre-operation values, and `redo()` immediately
afterwards succeeds and restores both collections to their post-operation
values. -/
theorem applyOp_undo_redo {side : Side} {k : OpKind} {s s' : Store}
    (h : applyOp side k s = some s') :
    (undo s').2 = true ∧
    (undo s').1.transition_data = s.transition_data ∧
    (undo s').1.shader_data = s.shader_data ∧
    (redo (undo s').1).2 = true ∧
    (redo (undo s').1).1.transition_data = s'.transition_data ∧
    (redo (undo s').1).1.shader_data = s'.shader_data := by
  obtain ⟨o, rfl⟩ := applyOp_structure h
  set X := (push_undo s (opDesc side k)).withData side o with hX
  have hlast : X.undo_stack.getLast? = some (snapOf s (opDesc side k)) := by
    rw [hX, withData_undo_stack, push_undo_undo_stack]
    exact getLast?_append_trim _ _
  have hR1 : ((undo X).1).redo_stack.getLast? = some (snapOf X "") := by
    rw [undo_after hlast]
    exact List.getLast?_concat _
  refine ⟨?_, ?_, ?_, ?_, ?_, ?_⟩
  · rw [undo_after hlast]
  · rw [undo_after hlast]; rfl
  · rw [undo_after hlast]; rfl
  · rw [redo_after hR1]
  · rw [redo_after hR1]; rfl
  · rw [redo_after hR1]; rfl

/-- A successful mutating operation touches only its own side's collection. -/
theorem applyOp_other_side {k : OpKind} {s s' : Store}
    (h : applyOp Side.shaders k s = some s') :
    s'.transition_data = s.transition_data := by
  obtain ⟨o, rfl⟩ := applyOp_structure h
  rw [withData_shaders_transition_data, push_undo_transition_data]

/-! ## Claims C1, C2, C4 -/

/-- C1.  For every store state and every mutating operation (set / add /
delete / delete_many / rename / duplicate / move, on either collection) that
succeeds, calling `undo()` immediately afterwards succeeds and restores both
collections to values deep-equal to the pre-operation state, and calling
`redo()` immediately after that undo succeeds and restores both collections
to values deep-equal to the post-operation state.  (Deep equality of pure
values is equality.) -/
theorem undo_redo_strict_inverse (side : Side) (k : OpKind) (s s' : Store)
    (h : applyOp side k s = some s') :
    (undo s').2 = true ∧
    (undo s').1.transition_data = s.transition_data ∧
    (undo s').1.shader_data = s.shader_data ∧
    (redo (undo s').1).2 = true ∧
    (redo (undo s').1).1.transition_data = s'.transition_data ∧
    (redo (undo s').1).1.shader_data = s'.shader_data :=
  applyOp_undo_redo h

/-- Concrete store used to instantiate the undo/redo claims. -/
def wStore : Store :=
  { transition_path := ""
    shader_path := ""
    transition_data := [("presets", J.obj [("a", J.num 1), ("b", J.num 2)])]
    shader_data := [("shader_presets", J.obj [("s1", J.num 3)])]
    undo_stack := []
    redo_stack := [snapOf initStore "left over from an earlier undo"] }

/-- Witness for C1: deleting transition `"a"` from `wStore` succeeds, and
undo/redo behave as stated. -/
theorem undo_redo_strict_inverse_witness :
    (undo ((applyOp Side.transitions (OpKind.deleteOp "a") wStore).getD initStore)).2 = true ∧
    (undo ((applyOp Side.transitions (OpKind.deleteOp "a") wStore).getD initStore)).1.transition_data
      = wStore.transition_data ∧
    (undo ((applyOp Side.transitions (OpKind.deleteOp "a") wStore).getD initStore)).1.shader_data
      = wStore.shader_data ∧
    (redo (undo ((applyOp Side.transitions (OpKind.deleteOp "a") wStore).getD initStore)).1).2 = true ∧
    (redo (undo ((applyOp Side.transitions (OpKind.deleteOp "a") wStore).getD initStore)).1).1.transition_data
      = ((applyOp Side.transitions (OpKind.deleteOp "a") wStore).getD initStore).transition_data ∧
    (redo (undo ((applyOp Side.transitions (OpKind.deleteOp "a") wStore).getD initStore)).1).1.shader_data
      = ((applyOp Side.transitions (OpKind.deleteOp "a") wStore).getD initStore).shader_data :=
  undo_redo_strict_inverse Side.transitions (OpKind.deleteOp "a") wStore
    ((applyOp Side.transitions (OpKind.deleteOp "a") wStore).getD initStore) rfl

/-- C2.  Undo snapshots cover the whole store atomically: any successful
mutating operation on the "shaders" collection leaves the "transitions"
collection untouched, and the subsequent `undo()` (which succeeds) also
leaves it untouched — each snapshot captures both collections even though
only one changed. -/
theorem cross_collection_atomicity (k : OpKind) (s s' : Store)
    (h : applyOp Side.shaders k s = some s') :
    s'.transition_data = s.transition_data ∧
    (undo s').2 = true ∧
    (undo s').1.transition_data = s.transition_data :=
  ⟨applyOp_other_side h,
   (applyOp_undo_redo h).1,
   (applyOp_undo_redo h).2.1⟩

/-- Witness for C2: adding shader `"glow"` to `wStore`. -/
theorem cross_collection_atomicity_witness :
    ((applyOp Side.shaders (OpKind.addOp "glow" (J.num 7)) wStore).getD initStore).transition_data
      = wStore.transition_data ∧
    (undo ((applyOp Side.shaders (OpKind.addOp "glow" (J.num 7)) wStore).getD initStore)).2 = true ∧
    (undo ((applyOp Side.shaders (OpKind.addOp "glow" (J.num 7)) wStore).getD initStore)).1.transition_data
      = wStore.transition_data :=
  cross_collection_atomicity (OpKind.addOp "glow" (J.num 7)) wStore
    ((applyOp Side.shaders (OpKind.addOp "glow" (J.num 7)) wStore).getD initStore) rfl

/-- C4.  Every successful mutating CRUD operation other than undo/redo
leaves the redo stack empty — in particular, a new mutating operation after
an `undo()` (which made the redo stack non-empty) empties it again. -/
theorem mutating_op_clears_redo (side : Side) (k : OpKind) (s s' : Store)
    (h : applyOp side k s = some s') :
    s'.redo_stack = [] := by
  obtain ⟨o, rfl⟩ := applyOp_structure h
  rw [withData_redo_stack, push_undo_redo_stack]

/-- Witness for C4: `wStore` has a non-empty redo stack; renaming transition
`"a"` to `"c"` succeeds and empties it. -/
theorem mutating_op_clears_redo_witness :
    wStore.redo_stack ≠ [] ∧
    ((applyOp Side.transitions (OpKind.renameOp "a" "c") wStore).getD initStore).redo_stack = [] :=
  ⟨by simp [wStore],
   mutating_op_clears_redo Side.transitions (OpKind.renameOp "a" "c") wStore
     ((applyOp Side.transitions (OpKind.renameOp "a" "c") wStore).getD initStore) rfl⟩

/-! ## Claim C3: bounded history -/

theorem applyOp_undo_stack {side : Side} {k : OpKind} {s s' : Store}
    (h : applyOp side k s = some s') :
    s'.undo_stack =
      (if (s.undo_stack ++ [snapOf s (opDesc side k)]).length > MAX_UNDO_LEVELS
       then (s.undo_stack ++ [snapOf s (opDesc side k)]).tail
       else s.undo_stack ++ [snapOf s (opDesc side k)]) := by
  obtain ⟨o, rfl⟩ := applyOp_structure h
  rw [withData_undo_stack, push_undo_undo_stack]

/-- Below the bound nothing is dropped; at the bound the append-then-trim is
a one-element drop from the front. -/
theorem trim_eq_drop (u : List UndoState) (x : UndoState)
    (hu : u.length ≤ MAX_UNDO_LEVELS) :
    (if (u ++ [x]).length > MAX_UNDO_LEVELS then (u ++ [x]).tail else u ++ [x])
      = (u ++ [x]).drop (u.length + 1 - MAX_UNDO_LEVELS) := by
  by_cases h : (u ++ [x]).length > MAX_UNDO_LEVELS
  · rw [if_pos h, ← List.drop_one]
    congr 1
    simp only [List.length_append, List.length_singleton] at h
    omega
  · rw [if_neg h]
    have h0 : u.length + 1 - MAX_UNDO_LEVELS = 0 := by
      simp only [List.length_append, List.length_singleton] at h
      omega
    rw [h0, List.drop_zero]

/-- Run a list of mutating operations in order, recording the snapshot each
one pushes; `none` when some operation fails. -/
def runTrace : List (Side × OpKind) → Store → Option (List UndoState × Store)
  | [], s => some ([], s)
  | (side, k) :: ops, s =>
      match applyOp side k s with
      | none => none
      | some s' =>
          (runTrace ops s').map (fun p => (snapOf s (opDesc side k) :: p.1, p.2))

/-- After any all-successful run of mutating operations, the undo stack is
the suffix of "initial stack followed by every pushed snapshot" that fits in
`MAX_UNDO_LEVELS` entries: the oldest entries are evicted first. -/
theorem runTrace_spec :
    ∀ (ops : List (Side × OpKind)) (s : Store) (tr : List UndoState) (sf : Store),
      s.undo_stack.length ≤ MAX_UNDO_LEVELS →
      runTrace ops s = some (tr, sf) →
      tr.length = ops.length ∧
      sf.undo_stack =
        (s.undo_stack ++ tr).drop (s.undo_stack.length + tr.length - MAX_UNDO_LEVELS) := by
  intro ops
  induction ops with
  | nil =>
      intro s tr sf hlen h
      simp only [runTrace, Option.some.injEq, Prod.mk.injEq] at h
      obtain ⟨rfl, rfl⟩ := h
      constructor
      · rfl
      · have h0 : s.undo_stack.length + ([] : List UndoState).length - MAX_UNDO_LEVELS = 0 := by
          simp only [List.length_nil]
          omega
        rw [h0, List.drop_zero, List.append_nil]
  | cons c ops ih =>
      intro s tr sf hlen h
      obtain ⟨side, k⟩ := c
      simp only [runTrace] at h
      rcases happ : applyOp side k s with _ | s'
      · rw [happ] at h
        exact Option.noConfusion h
      · rw [happ] at h
        rcases Option.map_eq_some'.mp h with ⟨⟨tr', sf'⟩, hrun, hpair⟩
        obtain ⟨htr, hsf⟩ := Prod.mk.injEq .. ▸ hpair
        have hstack : s'.undo_stack =
            (s.undo_stack ++ [snapOf s (opDesc side k)]).drop
              (s.undo_stack.length + 1 - MAX_UNDO_LEVELS) := by
          rw [applyOp_undo_stack happ, trim_eq_drop _ _ hlen]
        have hlen' : s'.undo_stack.length ≤ MAX_UNDO_LEVELS := by
          rw [hstack]
          simp only [List.length_drop, List.length_append, List.length_singleton]
          omega
        obtain ⟨hlen'', hsf'⟩ := ih s' tr' sf' hlen' hrun
        subst htr
        subst hsf
        constructor
        · simp [hlen'']
        · rw [hsf', hstack]
          have hdle : s.undo_stack.length + 1 - MAX_UNDO_LEVELS
              ≤ (s.undo_stack ++ [snapOf s (opDesc side k)]).length := by
            simp only [List.length_append, List.length_singleton]
            omega
          rw [← List.drop_append_of_le_length hdle, List.drop_drop, List.length_drop]
          have hlist : s.undo_stack ++ [snapOf s (opDesc side k)] ++ tr'
              = s.undo_stack ++ snapOf s (opDesc side k) :: tr' := by
            simp
          rw [hlist]
          congr 1
          simp only [List.length_append, List.length_cons, List.length_nil]
          omega

/-- Any public call that touches the store's state: a mutating CRUD call, a
`set` with `push_undo=False`, `undo`, `redo`, or `load`.  (`save` and the
read accessors do not modify any field.)  Calls whose mutating path does not
run (failure returns, no-ops, exceptions) leave the state unchanged. -/
inductive ApiCall where
  | mutCall (side : Side) (k : OpKind) : ApiCall
  | setNoRecord (side : Side) (name : String) (data : J) : ApiCall
  | undoCall : ApiCall
  | redoCall : ApiCall
  | loadCall (fs : String → FileResult) : ApiCall

def applyCall : ApiCall → Store → Store
  | .mutCall side k, s => (applyOp side k s).getD s
  | .setNoRecord side name data, s => (set_preset side s name data false).getD s
  | .undoCall, s => (undo s).1
  | .redoCall, s => (redo s).1
  | .loadCall fs, s => (load fs s).1

def runCalls : List ApiCall → Store → Store
  | [], s => s
  | c :: cs, s => runCalls cs (applyCall c s)

/-- The invariant that makes the undo-stack bound inductive: the stack is
bounded, and whenever the redo stack is non-empty the two stacks jointly fit
in the bound (so `redo`'s unconditional append cannot overflow). -/
def StackInv (s : Store) : Prop :=
  s.undo_stack.length ≤ MAX_UNDO_LEVELS ∧
  (s.redo_stack ≠ [] →
    s.undo_stack.length + s.redo_stack.length ≤ MAX_UNDO_LEVELS)

theorem stackInv_applyCall {s : Store} (c : ApiCall) (hs : StackInv s) :
    StackInv (applyCall c s) := by
  obtain ⟨h1, h2⟩ := hs
  cases c with
  | mutCall side k =>
      rcases happ : applyOp side k s with _ | s'
      · simpa [applyCall, happ] using ⟨h1, h2⟩
      · have hstack := applyOp_undo_stack happ
        have hredo : s'.redo_stack = [] := by
          obtain ⟨o, rfl⟩ := applyOp_structure happ
          rw [withData_redo_stack, push_undo_redo_stack]
        constructor
        · simp only [applyCall, happ, Option.getD_some]
          rw [hstack, trim_eq_drop _ _ h1]
          simp only [List.length_drop, List.length_append, List.length_cons,
            List.length_nil]
          omega
        · simp only [applyCall, happ, Option.getD_some, hredo]
          intro hc
          exact absurd rfl hc
  | setNoRecord side name data =>
      rcases happ : set_preset side s name data false with _ | s'
      · simpa [applyCall, happ] using ⟨h1, h2⟩
      · have : ∃ o, s' = s.withData side o := assign_preset_eq happ
        obtain ⟨o, rfl⟩ := this
        constructor
        · simp only [applyCall, happ, Option.getD_some, withData_undo_stack]
          exact h1
        · simp only [applyCall, happ, Option.getD_some, withData_undo_stack,
            withData_redo_stack]
          exact h2
  | undoCall =>
      rcases hU : s.undo_stack.getLast? with _ | prev
      · have heq : (undo s).1 = s := by unfold undo; rw [hU]
        simp only [applyCall, heq]
        exact ⟨h1, h2⟩
      · simp only [applyCall, undo_after hU]
        have hne : s.undo_stack ≠ [] := by
          intro hc
          rw [hc] at hU
          exact Option.noConfusion hU
        have hlen1 : 1 ≤ s.undo_stack.length := by
          cases hl : s.undo_stack with
          | nil => exact absurd hl hne
          | cons a as => simp [hl]
        constructor
        · show (s.undo_stack.dropLast).length ≤ MAX_UNDO_LEVELS
          rw [List.length_dropLast]
          omega
        · show s.redo_stack ++ [snapOf s ""] ≠ [] →
            (s.undo_stack.dropLast).length + (s.redo_stack ++ [snapOf s ""]).length ≤ _
          intro _
          rw [List.length_dropLast, List.length_append, List.length_cons, List.length_nil]
          rcases hr : s.redo_stack with _ | ⟨r, rs⟩
          · simp only [List.length_nil]
            omega
          · have := h2 (by rw [hr]; exact List.cons_ne_nil r rs)
            rw [hr] at this
            simp only [List.length_cons] at this ⊢
            omega
  | redoCall =>
      rcases hR : s.redo_stack.getLast? with _ | nxt
      · have heq : (redo s).1 = s := by unfold redo; rw [hR]
        simp only [applyCall, heq]
        exact ⟨h1, h2⟩
      · simp only [applyCall, redo_after hR]
        have hne : s.redo_stack ≠ [] := by
          intro hc
          rw [hc] at hR
          exact Option.noConfusion hR
        have hlen1 : 1 ≤ s.redo_stack.length := by
          cases hl : s.redo_stack with
          | nil => exact absurd hl hne
          | cons a as => simp [hl]
        have hsum := h2 hne
        constructor
        · show (s.undo_stack ++ [snapOf s ""]).length ≤ MAX_UNDO_LEVELS
          rw [List.length_append, List.length_cons, List.length_nil]
          omega
        · show s.redo_stack.dropLast ≠ [] →
            (s.undo_stack ++ [snapOf s ""]).length + (s.redo_stack.dropLast).length ≤ _
          intro _
          rw [List.length_append, List.length_cons, List.length_nil, List.length_dropLast]
          omega
  | loadCall fs =>
      constructor
      · show ([] : List UndoState).length ≤ MAX_UNDO_LEVELS
        simp [MAX_UNDO_LEVELS]
      · intro hc
        exact absurd rfl hc

theorem stackInv_runCalls :
    ∀ (cs : List ApiCall) (s : Store), StackInv s → StackInv (runCalls cs s) := by
  intro cs
  induction cs with
  | nil => intro s hs; exact hs
  | cons c cs ih => intro s hs; exact ih _ (stackInv_applyCall c hs)

/-- C3.  (a) Starting from empty history, after any sequence of public calls
(mutating ops, no-record sets, undo, redo, load) the undo stack never holds
more than `MAX_UNDO_LEVELS` (= 50) snapshots.  (b) Performing
`MAX_UNDO_LEVELS + k` successful mutating operations from a store with empty
undo history leaves exactly `MAX_UNDO_LEVELS` snapshots on the undo stack,
namely all pushed snapshots with the oldest `k` evicted first (FIFO). -/
theorem bounded_undo_history :
    (∀ (cs : List ApiCall) (s0 : Store), s0.undo_stack = [] → s0.redo_stack = [] →
      (runCalls cs s0).undo_stack.length ≤ MAX_UNDO_LEVELS) ∧
    (∀ (ops : List (Side × OpKind)) (s0 : Store) (tr : List UndoState) (sf : Store)
      (k : Nat), s0.undo_stack = [] → runTrace ops s0 = some (tr, sf) →
      ops.length = MAX_UNDO_LEVELS + k →
      sf.undo_stack.length = MAX_UNDO_LEVELS ∧ sf.undo_stack = tr.drop k) := by
  constructor
  · intro cs s0 hu hr
    have hinv : StackInv s0 := by
      constructor
      · rw [hu]; simp [MAX_UNDO_LEVELS]
      · intro hc; exact absurd hr hc
    exact (stackInv_runCalls cs s0 hinv).1
  · intro ops s0 tr sf k hu hrun hlen
    have h0 : s0.undo_stack.length ≤ MAX_UNDO_LEVELS := by
      rw [hu]; simp [MAX_UNDO_LEVELS]
    obtain ⟨htr, hsf⟩ := runTrace_spec ops s0 tr sf h0 hrun
    rw [hu] at hsf
    simp only [List.nil_append, List.length_nil, Nat.zero_add] at hsf
    have hk : tr.length - MAX_UNDO_LEVELS = k := by
      rw [htr, hlen]; omega
    constructor
    · rw [hsf, List.length_drop, htr, hlen]
      omega
    · rw [hsf, hk]

/-- Witness operations for C3(b): 51 successful `add_transition` calls. -/
def w3ops : List (Side × OpKind) :=
  List.replicate (MAX_UNDO_LEVELS + 1) (Side.transitions, OpKind.addOp "x" J.null)

/-- Witness for C3: a single mutating call respects the bound, and 51
successful mutating operations from a fresh store leave exactly 50
snapshots, the oldest one evicted. -/
theorem bounded_undo_history_witness :
    (runCalls [ApiCall.mutCall Side.transitions (OpKind.addOp "x" J.null)]
        initStore).undo_stack.length ≤ MAX_UNDO_LEVELS ∧
    ((runTrace w3ops initStore).getD ([], initStore)).2.undo_stack.length
        = MAX_UNDO_LEVELS ∧
    ((runTrace w3ops initStore).getD ([], initStore)).2.undo_stack
        = ((runTrace w3ops initStore).getD ([], initStore)).1.drop 1 :=
  ⟨bounded_undo_history.1 [ApiCall.mutCall Side.transitions (OpKind.addOp "x" J.null)]
      initStore rfl rfl,
   bounded_undo_history.2 w3ops initStore
      ((runTrace w3ops initStore).getD ([], initStore)).1
      ((runTrace w3ops initStore).getD ([], initStore)).2 1 rfl rfl rfl⟩

/-! ## Dictionary lemmas -/

theorem dataOf_push_undo (s : Store) (d : String) (side : Side) :
    (push_undo s d).dataOf side = s.dataOf side := by
  cases side <;> rfl

theorem dataOf_withData (s : Store) (side : Side) (o : Obj) :
    (s.withData side o).dataOf side = o := by
  cases side <;> rfl

theorem setKey_append_of_not_contains {o : Obj} {k : String}
    (h : containsKey o k = false) (v : J) :
    setKey o k v = o ++ [(k, v)] := by
  unfold setKey
  rw [h]
  rfl

theorem getVal?_cons_pos {p : String × J} {k : String} (ps : Obj)
    (h : (p.1 == k) = true) :
    getVal? (p :: ps) k = some p.2 := by
  unfold getVal?
  rw [List.find?_cons_of_pos ps (show (fun q : String × J => q.1 == k) p = true from h)]
  rfl

theorem getVal?_cons_neg {p : String × J} {k : String} (ps : Obj)
    (h : (p.1 == k) = false) :
    getVal? (p :: ps) k = getVal? ps k := by
  simp only [getVal?]
  rw [List.find?_cons_of_neg]
  simp [h]

theorem getVal?_update (o : Obj) (k : String) (v : J) (h : containsKey o k = true) :
    getVal? (o.map (fun p => if p.1 == k then (k, v) else p)) k = some v := by
  induction o with
  | nil => simp [containsKey] at h
  | cons p ps ih =>
      rcases hb : (p.1 == k) with _ | _
      · have hps : containsKey ps k = true := by
          simp only [containsKey, List.any_cons, hb, Bool.false_or] at h
          exact h
        rw [List.map_cons, if_neg (by simp [hb])]
        rw [getVal?_cons_neg _ hb]
        exact ih hps
      · rw [List.map_cons, if_pos hb]
        exact getVal?_cons_pos _ (by simp)

theorem getVal?_append_new (o : Obj) (k : String) (v : J) (h : containsKey o k = false) :
    getVal? (o ++ [(k, v)]) k = some v := by
  induction o with
  | nil => exact getVal?_cons_pos _ (by simp)
  | cons p ps ih =>
      have h2 : (p.1 == k) = false ∧ containsKey ps k = false := by
        simpa [containsKey, List.any_cons] using h
      rw [List.cons_append, getVal?_cons_neg _ h2.1]
      exact ih h2.2

theorem getVal?_setKey_self (o : Obj) (k : String) (v : J) :
    getVal? (setKey o k v) k = some v := by
  unfold setKey
  rcases h : containsKey o k with _ | _
  · rw [if_neg (by simp)]
    exact getVal?_append_new o k v h
  · rw [if_pos rfl]
    exact getVal?_update o k v h

/-! ## Claim C5: the `load` success flag -/

/-- Does opening/parsing this file fail although the file exists? -/
def FileResult.isInvalid : FileResult → Bool
  | .invalid => true
  | _ => false

/-- Modelled from the spec (§4.1 `load()`): the success flag the spec
describes — "false if any collection failed to parse an *existing* file, but
a *missing* file is not a failure".  Used only to compare against the flag
the source actually computes. -/
def loadOkSpec (fs : String → FileResult) (s : Store) : Bool :=
  (if s.transition_path != "" then !(fs s.transition_path).isInvalid else true) &&
  (if s.shader_path != "" then !(fs s.shader_path).isInvalid else true)

/-- A file system with no files at all, and a store configured with one
transition file. -/
def fs5 : String → FileResult := fun _ => FileResult.missing

def s5 : Store := set_paths initStore "transitions.json" ""

/-- Counterexample to C5 as stated: every configured file that exists parses
(vacuously — no file exists), so the claim requires `load` to return `true`;
the code returns `false`, because `if not self.transition_data` treats the
empty dict a missing file leaves behind as a failure. -/
theorem load_missing_not_failure_counterexample :
    fs5 "transitions.json" = FileResult.missing ∧
    loadOkSpec fs5 s5 = true ∧
    (load fs5 s5).2 = false :=
  ⟨rfl, rfl, rfl⟩

/-- C5 amended.  `load()` never raises (it is a total function) and returns
`true` iff every configured collection's freshly loaded value is truthy:
missing files and unparsable files both leave the collection as an empty
mapping and both make the flag `false` (as does an existing file that parses
to an empty or otherwise falsy document). -/
theorem load_flag_characterization (fs : String → FileResult) (s : Store) :
    ((load fs s).2 =
      ((if s.transition_path != "" then (_load_json fs s.transition_path).truthy else true) &&
       (if s.shader_path != "" then (_load_json fs s.shader_path).truthy else true))) ∧
    (s.transition_path ≠ "" → fs s.transition_path = FileResult.missing →
      (load fs s).1.transition_data = [] ∧ (load fs s).2 = false) ∧
    (s.transition_path ≠ "" → fs s.transition_path = FileResult.invalid →
      (load fs s).1.transition_data = [] ∧ (load fs s).2 = false) := by
  refine ⟨rfl, ?_, ?_⟩
  · intro hp hm
    have hb : (s.transition_path != "") = true := bne_iff_ne.mpr hp
    have ht : _load_json fs s.transition_path = J.obj [] := by
      unfold _load_json
      rw [hm]
    constructor
    · show (if s.transition_path != "" then loadedObj (_load_json fs s.transition_path)
            else s.transition_data) = []
      rw [if_pos hb, ht]
      rfl
    · show ((if s.transition_path != "" then (_load_json fs s.transition_path).truthy else true) &&
            (if s.shader_path != "" then (_load_json fs s.shader_path).truthy else true)) = false
      rw [if_pos hb, ht]
      rfl
  · intro hp hm
    have hb : (s.transition_path != "") = true := bne_iff_ne.mpr hp
    have ht : _load_json fs s.transition_path = J.obj [] := by
      unfold _load_json
      rw [hm]
    constructor
    · show (if s.transition_path != "" then loadedObj (_load_json fs s.transition_path)
            else s.transition_data) = []
      rw [if_pos hb, ht]
      rfl
    · show ((if s.transition_path != "" then (_load_json fs s.transition_path).truthy else true) &&
            (if s.shader_path != "" then (_load_json fs s.shader_path).truthy else true)) = false
      rw [if_pos hb, ht]
      rfl

/-- Witness for the amended C5, at the same concrete input as the
counterexample. -/
theorem load_flag_characterization_witness :
    (load fs5 s5).1.transition_data = [] ∧ (load fs5 s5).2 = false :=
  (load_flag_characterization fs5 s5).2.1 (by decide) rfl

/-! ## Claim C7: duplicate with an existing target name -/

/-- A store whose transition collection has entries `"a"` and `"b"`. -/
def s7 : Store :=
  { initStore with
      transition_data := [("presets", J.obj [("a", J.num 1), ("b", J.num 2)])] }

/-- Counterexample to C7 as stated: duplicating `"a"` onto the *existing*
name `"b"` does not fail — it returns `True`, overwrites the entry under
`"b"` (previously `2`, now a copy of `"a"`'s value `1`), and pushes an undo
snapshot. -/
theorem duplicate_conflict_counterexample :
    get_transition s7 "b" = some (J.num 2) ∧
    (duplicate_transition s7 "a" "b").map Prod.snd = some true ∧
    (duplicate_transition s7 "a" "b").map (fun p => get_transition p.1 "b")
      = some (some (J.num 1)) ∧
    (duplicate_transition s7 "a" "b").map (fun p => p.1.undo_stack.length) = some 1 :=
  ⟨rfl, rfl, rfl, rfl⟩

/-- C7 amended.  `duplicate(name, new_name)` fails (returns `False`, with no
mutation and no undo push) only when the *source* `name` is absent; when the
source exists the call always succeeds — even if `new_name` already exists,
in which case the entry under `new_name` is overwritten in place with a deep
copy of `name`'s entry, after an undo snapshot is pushed. -/
theorem duplicate_checks_only_source (side : Side) (s : Store)
    (name new_name : String) (presets : Obj)
    (hp : getVal? (s.dataOf side) side.key = some (J.obj presets)) :
    (containsKey presets name = false →
      duplicate_preset side s name new_name = some (s, false)) ∧
    (containsKey presets name = true →
      duplicate_preset side s name new_name =
        some ((push_undo s ("Duplicate " ++ side.noun ++ ": " ++ name)).withData side
          (setKey (s.dataOf side) side.key
            (J.obj (setKey presets new_name (getValD presets name J.null)))), true)) := by
  have hd : getValD (s.dataOf side) side.key (J.obj []) = J.obj presets := by
    rw [getValD, hp]
    rfl
  constructor
  · intro hc
    simp only [duplicate_preset, hd, hc]
    rfl
  · intro hc
    simp only [duplicate_preset, hd, hc]
    rw [dataOf_push_undo]
    rfl

/-- Witness for the amended C7 at the counterexample's input. -/
theorem duplicate_checks_only_source_witness :
    duplicate_transition s7 "a" "b" =
      some ((push_undo s7 "Duplicate transition: a").withData Side.transitions
        (setKey (s7.dataOf Side.transitions) "presets"
          (J.obj (setKey [("a", J.num 1), ("b", J.num 2)] "b"
            (getValD [("a", J.num 1), ("b", J.num 2)] "a" J.null)))), true) :=
  (duplicate_checks_only_source Side.transitions s7 "a" "b"
    [("a", J.num 1), ("b", J.num 2)] rfl).2 rfl

/-! ## Claim C10: rename moves the entry to the end -/

theorem containsKey_eraseKey (o : Obj) (k k' : String) (h : containsKey o k = false) :
    containsKey (eraseKey o k') k = false := by
  induction o with
  | nil => rfl
  | cons p ps ih =>
      have h2 : (p.1 == k) = false ∧ containsKey ps k = false := by
        simpa [containsKey, List.any_cons] using h
      simp only [eraseKey, List.filter_cons]
      split
      · simp only [containsKey, List.any_cons, h2.1, Bool.false_or]
        have hrec := ih h2.2
        simpa [containsKey, eraseKey] using hrec
      · have hrec := ih h2.2
        simpa [containsKey, eraseKey] using hrec

/-- C10.  Whenever `rename(old, new)` succeeds (old present, new absent),
the renamed entry keeps its value but is re-inserted at the *last* position
of the collection's iteration order, regardless of where `old` was:
`presets[new] = presets.pop(old)` removes the old key and appends the new
one at the end. -/
theorem rename_moves_entry_to_end (side : Side) (s : Store)
    (old_name new_name : String) (presets : Obj)
    (hp : getVal? (s.dataOf side) side.key = some (J.obj presets))
    (hold : containsKey presets old_name = true)
    (hnew : containsKey presets new_name = false) :
    rename_preset side s old_name new_name =
      some ((push_undo s
          ("Rename " ++ side.noun ++ ": " ++ old_name ++ " -> " ++ new_name)).withData side
        (setKey (s.dataOf side) side.key
          (J.obj (eraseKey presets old_name ++
            [(new_name, getValD presets old_name J.null)]))), true) := by
  have hd : getValD (s.dataOf side) side.key (J.obj []) = J.obj presets := by
    rw [getValD, hp]
    rfl
  have hguard : (!containsKey presets old_name || containsKey presets new_name) = false := by
    rw [hold, hnew]
    rfl
  have happend : setKey (eraseKey presets old_name) new_name (getValD presets old_name J.null)
      = eraseKey presets old_name ++ [(new_name, getValD presets old_name J.null)] :=
    setKey_append_of_not_contains (containsKey_eraseKey _ _ _ hnew) _
  simp only [rename_preset, hd, hguard]
  rw [dataOf_push_undo, happend]
  rfl

/-- Witness for C10: renaming `"a"` (first position) to `"c"` in `s7` lands
the entry at the end with its value intact. -/
theorem rename_moves_entry_to_end_witness :
    rename_transition s7 "a" "c" =
      some ((push_undo s7 "Rename transition: a -> c").withData Side.transitions
        (setKey (s7.dataOf Side.transitions) "presets"
          (J.obj (eraseKey [("a", J.num 1), ("b", J.num 2)] "a" ++
            [("c", getValD [("a", J.num 1), ("b", J.num 2)] "a" J.null)]))), true) :=
  rename_moves_entry_to_end Side.transitions s7 "a" "c"
    [("a", J.num 1), ("b", J.num 2)] rfl rfl rfl

/-! ## Claim C8: comment entries stay first across reorders -/

theorem containsKey_append (a b : Obj) (k : String) :
    containsKey (a ++ b) k = (containsKey a k || containsKey b k) := by
  simp [containsKey, List.any_append]

/-- A comment key and a non-comment key never compare equal. -/
theorem comment_beq_noncomment {k n : String}
    (hk : strStartsWith k "_" = true) (hn : strStartsWith n "_" = false) :
    (k == n) = false := by
  rcases hb : (k == n) with _ | _
  · rfl
  · have : k = n := eq_of_beq hb
    rw [this, hn] at hk
    exact Bool.noConfusion hk

/-- Writing a non-comment key into `C ++ R` (comment entries first) keeps the
comment prefix untouched and keeps the tail free of comment keys. -/
theorem setKey_comment_prefix {C R : Obj} {n : String} {v : J}
    (hC : ∀ p ∈ C, strStartsWith p.1 "_" = true)
    (hR : ∀ p ∈ R, strStartsWith p.1 "_" = false)
    (hn : strStartsWith n "_" = false) :
    ∃ R', setKey (C ++ R) n v = C ++ R' ∧ ∀ p ∈ R', strStartsWith p.1 "_" = false := by
  have hCn : containsKey C n = false := by
    rcases hb : containsKey C n with _ | _
    · rfl
    · exfalso
      unfold containsKey at hb
      obtain ⟨p, hpmem, hpeq⟩ := List.any_eq_true.mp hb
      rw [comment_beq_noncomment (hC p hpmem) hn] at hpeq
      exact Bool.noConfusion hpeq
  unfold setKey
  rcases hcr : containsKey (C ++ R) n with _ | _
  · rw [if_neg (by simp)]
    refine ⟨R ++ [(n, v)], by rw [List.append_assoc], ?_⟩
    intro p hp
    rcases List.mem_append.mp hp with hp | hp
    · exact hR p hp
    · rw [List.mem_singleton.mp hp]
      exact hn
  · rw [if_pos rfl, List.map_append]
    refine ⟨R.map (fun p => if p.1 == n then (n, v) else p), ?_, ?_⟩
    · have hCmap : C.map (fun p => if p.1 == n then (n, v) else p) = C := by
        have hfix : ∀ p ∈ C, (if p.1 == n then (n, v) else p) = id p := by
          intro p hp
          rw [comment_beq_noncomment (hC p hp) hn]
          rfl
        rw [List.map_congr_left hfix, List.map_id]
      rw [hCmap]
    · intro p hp
      obtain ⟨q, hq, hqe⟩ := List.mem_map.mp hp
      rcases hb : (q.1 == n) with _ | _
      · rw [hb] at hqe
        rw [if_neg (by simp)] at hqe
        cases hqe
        exact hR _ hq
      · rw [hb] at hqe
        rw [if_pos rfl] at hqe
        cases hqe
        exact hn

/-- The comment-collecting pass of the reorder helper: with pairwise-distinct
keys it appends exactly the comment entries, in their original order. -/
theorem comments_fold (old : Obj) :
    ∀ acc : Obj,
      (∀ p ∈ old, containsKey acc p.1 = false) →
      (keysOf old).Nodup →
      old.foldl (fun acc p => if strStartsWith p.1 "_" then setKey acc p.1 p.2 else acc) acc
        = acc ++ old.filter (fun p => strStartsWith p.1 "_") := by
  induction old with
  | nil =>
      intro acc _ _
      simp
  | cons p ps ih =>
      intro acc hfresh hnd
      have hnd2 : p.1 ∉ ps.map Prod.fst ∧ (ps.map Prod.fst).Nodup := by
        simp only [keysOf, List.map_cons] at hnd
        exact List.nodup_cons.mp hnd
      have hndtl : (keysOf ps).Nodup := hnd2.2
      have hhead : p.1 ∉ keysOf ps := hnd2.1
      rcases hb : strStartsWith p.1 "_" with _ | _
      · rw [List.foldl_cons, if_neg (by simp [hb]), List.filter_cons,
          if_neg (by simp [hb])]
        exact ih acc (fun q hq => hfresh q (List.mem_cons_of_mem p hq)) hndtl
      · rw [List.foldl_cons, if_pos hb, List.filter_cons, if_pos hb]
        have hset : setKey acc p.1 p.2 = acc ++ [p] := by
          rw [setKey_append_of_not_contains (hfresh p (List.mem_cons_self p ps)) p.2]
        rw [hset]
        have hfresh2 : ∀ q ∈ ps, containsKey (acc ++ [p]) q.1 = false := by
          intro q hq
          rw [containsKey_append]
          have h1 : containsKey acc q.1 = false := hfresh q (List.mem_cons_of_mem p hq)
          have h2 : containsKey [p] q.1 = false := by
            have hne : (p.1 == q.1) = false := by
              rcases he : (p.1 == q.1) with _ | _
              · rfl
              · exact absurd (eq_of_beq he ▸ List.mem_map_of_mem Prod.fst hq) hhead
            simp [containsKey, hne]
          rw [h1, h2]
          rfl
        rw [ih (acc ++ [p]) hfresh2 hndtl, List.append_assoc]
        rfl

/-- The order-applying pass of the reorder helper: starting from a
comment-only prefix, every step keeps the comment entries first and adds
only non-comment keys after them. -/
theorem order_fold (old : Obj) :
    ∀ (no : List String) (C R : Obj),
      (∀ p ∈ C, strStartsWith p.1 "_" = true) →
      (∀ p ∈ R, strStartsWith p.1 "_" = false) →
      (∀ n ∈ no, strStartsWith n "_" = false) →
      ∃ R',
        no.foldl (fun acc n =>
          match getVal? old n with
          | some v => setKey acc n v
          | none => acc) (C ++ R) = C ++ R' ∧
        ∀ p ∈ R', strStartsWith p.1 "_" = false := by
  intro no
  induction no with
  | nil =>
      intro C R hC hR _
      exact ⟨R, rfl, hR⟩
  | cons n ns ih =>
      intro C R hC hR hno
      have hn : strStartsWith n "_" = false := hno n (List.mem_cons_self n ns)
      have hns : ∀ m ∈ ns, strStartsWith m "_" = false :=
        fun m hm => hno m (List.mem_cons_of_mem n hm)
      simp only [List.foldl_cons]
      rcases hg : getVal? old n with _ | v
      · exact ih C R hC hR hns
      · obtain ⟨R1, hR1eq, hR1⟩ := setKey_comment_prefix hC hR hn (v := v)
        have hgoal := ih C R1 hC hR1 hns
        rw [← hR1eq] at hgoal
        exact hgoal

theorem keysOf_filter_comment (o : Obj) :
    keysOf (o.filter (fun p => strStartsWith p.1 "_"))
      = (keysOf o).filter (fun k => strStartsWith k "_") := by
  induction o with
  | nil => rfl
  | cons p ps ih =>
      rcases h : strStartsWith p.1 "_" with _ | _
      · simpa [keysOf, List.filter_cons, h] using ih
      · simpa [keysOf, List.filter_cons, h] using ih

/-- The full reorder helper: comments (in original order) first, then only
non-comment keys. -/
theorem reorder_presets_spec (old : Obj) (no : List String)
    (hnd : (keysOf old).Nodup)
    (hno : ∀ n ∈ no, strStartsWith n "_" = false) :
    ∃ R',
      reorder_presets old no = old.filter (fun p => strStartsWith p.1 "_") ++ R' ∧
      ∀ p ∈ R', strStartsWith p.1 "_" = false := by
  unfold reorder_presets
  rw [comments_fold old [] (by intro p _; rfl) hnd]
  have hCprop : ∀ p ∈ old.filter (fun p => strStartsWith p.1 "_"), strStartsWith p.1 "_" = true := by
    intro p hp
    exact (List.mem_filter.mp hp).2
  have := order_fold old no (old.filter (fun p => strStartsWith p.1 "_")) []
    hCprop (by intro p hp; exact absurd hp (List.not_mem_nil p)) hno
  simpa using this

theorem getD_mem_or_default (l : List String) (i : Nat) :
    l.getD i "" ∈ l ∨ l.getD i "" = "" := by
  rcases hg : l[i]? with _ | x
  · right
    simp [List.getD_eq_getD_get?, List.get?_eq_getElem?, hg]
  · left
    have hx : x ∈ l := List.getElem?_mem hg
    simpa [List.getD_eq_getD_get?, List.get?_eq_getElem?, hg] using hx

theorem mem_names_startsWith {presets : Obj} {n : String}
    (h : n ∈ (presets.map Prod.fst).filter (fun k => k != "" && !(strStartsWith k "_"))) :
    strStartsWith n "_" = false := by
  have hpred := (List.mem_filter.mp h).2
  have h2 := (Bool.and_eq_true _ _).mp hpred
  simpa using h2.2

/-- Every successful `move` is a `push_undo` followed by writing back the
reorder of the original presets along some list of non-comment names. -/
theorem move_preset_success {side : Side} {s : Store} {name direction : String}
    {s' : Store} {presets : Obj}
    (hp : getVal? (s.dataOf side) side.key = some (J.obj presets))
    (h : move_preset side s name direction = some (s', true)) :
    ∃ desc newOrder,
      (∀ n ∈ newOrder, strStartsWith n "_" = false) ∧
      s' = (push_undo s desc).withData side
        (setKey ((push_undo s desc).dataOf side) side.key
          (J.obj (reorder_presets presets newOrder))) := by
  have hd : getValD (s.dataOf side) side.key (J.obj []) = J.obj presets := by
    rw [getValD, hp]
    rfl
  rcases hemp : presets.isEmpty with _ | _
  case true =>
      have hnil : presets = [] := List.isEmpty_iff.mp hemp
      subst hnil
      have hgn : get_preset_names side s = some [] := by
        simp only [get_preset_names, hd]
        rfl
      simp only [move_preset, hgn] at h
      simp at h
  case false =>
      have hgn : get_preset_names side s
          = some ((presets.map Prod.fst).filter (fun k => k != "" && !(strStartsWith k "_"))) := by
        simp only [get_preset_names, hd]
        rw [if_neg (by simp [J.truthy, hemp])]
      simp only [move_preset, hgn] at h
      split at h
      · exact absurd (congrArg Prod.snd (Option.some.inj h)) Bool.false_ne_true
      · rename_i hcont
        have hmem : name ∈ (presets.map Prod.fst).filter
            (fun k => k != "" && !(strStartsWith k "_")) := by
          have hb2 : ((presets.map Prod.fst).filter
              (fun k => k != "" && !(strStartsWith k "_"))).contains name = true := by
            rcases hb : ((presets.map Prod.fst).filter
                (fun k => k != "" && !(strStartsWith k "_"))).contains name with _ | _
            · exact absurd hb hcont
            · rfl
          exact List.elem_iff.mp hb2
        split at h
        · -- the inner reorder-order computation returned none: move reports failure
          exact absurd (congrArg Prod.snd (Option.some.inj h)) Bool.false_ne_true
        · rename_i newOrder hchain
          split at h
          · rename_i old_presets heq
            rw [dataOf_push_undo, hp] at heq
            obtain rfl : presets = old_presets := J.obj.inj (Option.some.inj heq)
            refine ⟨_, newOrder, ?_, (congrArg Prod.fst (Option.some.inj h)).symm⟩
            intro n hn
            repeat' split at hchain
            all_goals
              first
              | exact Option.noConfusion hchain
              | (cases Option.some.inj hchain
                 first
                 | (rcases List.mem_cons.mp hn with rfl | hn2
                    · exact mem_names_startsWith hmem
                    · exact mem_names_startsWith (List.mem_of_mem_erase hn2))
                 | (rcases List.mem_append.mp hn with hn2 | hn2
                    · exact mem_names_startsWith (List.mem_of_mem_erase hn2)
                    · rw [List.mem_singleton.mp hn2]
                      exact mem_names_startsWith hmem)
                 | (rcases List.mem_or_eq_of_mem_set hn with hn2 | rfl
                    · rcases List.mem_or_eq_of_mem_set hn2 with hn3 | rfl
                      · exact mem_names_startsWith hn3
                      · rcases getD_mem_or_default _ _ with hm | hm
                        · exact mem_names_startsWith hm
                        · rw [hm]
                          rfl
                    · rcases getD_mem_or_default _ _ with hm | hm
                      · exact mem_names_startsWith hm
                      · rw [hm]
                        rfl))
          · exact Option.noConfusion h

/-- The presets object of one side of a store (empty when absent or not an
object) — the view serialisation and listings read. -/
def presetsOf (side : Side) (s : Store) : Obj :=
  match getVal? (s.dataOf side) side.key with
  | some (J.obj o) => o
  | _ => []

/-- The spec's concrete comment-ordering example: collection
`{"_meta": 1, "b": {}, "a": {}}`. -/
def s8 : Store :=
  { initStore with
      transition_data :=
        [("presets", J.obj [("_meta", J.num 1), ("b", J.obj []), ("a", J.obj [])])] }

/-- C8.  After any successful reorder (`move` with direction
top/up/down/bottom), all comment entries (`_`-prefixed keys) appear before
all non-comment entries in the collection's key order, in their original
relative order; concretely, for `{"_meta": 1, "b": {}, "a": {}}`, after
`move("a", "top")` the key order is `["_meta", "a", "b"]`. -/
theorem move_keeps_comments_first :
    (∀ (side : Side) (s : Store) (name direction : String) (s' : Store) (presets : Obj),
      getVal? (s.dataOf side) side.key = some (J.obj presets) →
      (keysOf presets).Nodup →
      move_preset side s name direction = some (s', true) →
      (keysOf (presetsOf side s')).take
          ((keysOf presets).filter (fun k => strStartsWith k "_")).length
        = (keysOf presets).filter (fun k => strStartsWith k "_") ∧
      ((keysOf (presetsOf side s')).drop
          ((keysOf presets).filter (fun k => strStartsWith k "_")).length).all
          (fun k => !(strStartsWith k "_")) = true) ∧
    (move_transition s8 "a" "top").map
        (fun p => (keysOf (presetsOf Side.transitions p.1), p.2))
      = some (["_meta", "a", "b"], true) := by
  constructor
  · intro side s name direction s' presets hp hnd hmv
    obtain ⟨desc, newOrder, hno, rfl⟩ := move_preset_success hp hmv
    have hpres : presetsOf side
        ((push_undo s desc).withData side
          (setKey ((push_undo s desc).dataOf side) side.key
            (J.obj (reorder_presets presets newOrder))))
        = reorder_presets presets newOrder := by
      unfold presetsOf
      rw [dataOf_withData, getVal?_setKey_self]
    obtain ⟨R', hre, hR'⟩ := reorder_presets_spec presets newOrder hnd hno
    rw [hpres, hre]
    have hkeys : keysOf (presets.filter (fun p => strStartsWith p.1 "_") ++ R')
        = (keysOf presets).filter (fun k => strStartsWith k "_") ++ keysOf R' := by
      rw [keysOf, List.map_append, ← keysOf_filter_comment]
      rfl
    rw [hkeys]
    constructor
    · exact List.take_left _ _
    · rw [List.drop_left, List.all_eq_true]
      intro k hk
      obtain ⟨p, hpmem, rfl⟩ := List.mem_map.mp hk
      simp [hR' p hpmem]
  · rfl

/-- Witness for C8 at the spec's example. -/
theorem move_keeps_comments_first_witness :
    (keysOf (presetsOf Side.transitions
        ((move_transition s8 "a" "top").getD (initStore, false)).1)).take
        ((keysOf [("_meta", J.num 1), ("b", J.obj []), ("a", J.obj [])]).filter
          (fun k => strStartsWith k "_")).length
      = (keysOf [("_meta", J.num 1), ("b", J.obj []), ("a", J.obj [])]).filter
          (fun k => strStartsWith k "_") ∧
    ((keysOf (presetsOf Side.transitions
        ((move_transition s8 "a" "top").getD (initStore, false)).1)).drop
        ((keysOf [("_meta", J.num 1), ("b", J.obj []), ("a", J.obj [])]).filter
          (fun k => strStartsWith k "_")).length).all
        (fun k => !(strStartsWith k "_")) = true :=
  move_keeps_comments_first.1 Side.transitions s8 "a" "top"
    ((move_transition s8 "a" "top").getD (initStore, false)).1
    [("_meta", J.num 1), ("b", J.obj []), ("a", J.obj [])]
    rfl (by decide) rfl

/-! ## Claim C9: unique-name generation

The source's `while name in existing` loop is embedded with fuel
(`uniqueNameLoop`).  To show the fuel `existing.length + 1` suffices we need
that the candidate names `base`, `base_1`, `base_2`, … are pairwise
distinct, which reduces to the injectivity of `Nat.repr`; that in turn is
proved by evaluating the decimal digit list `Nat.toDigitsCore` produces. -/

/-- Decimal value of a digit character (inverse of `Nat.digitChar` below 10). -/
def decDigitVal (c : Char) : Nat :=
  if c = '0' then 0 else if c = '1' then 1 else if c = '2' then 2 else
  if c = '3' then 3 else if c = '4' then 4 else if c = '5' then 5 else
  if c = '6' then 6 else if c = '7' then 7 else if c = '8' then 8 else
  if c = '9' then 9 else 10

theorem decDigitVal_digitChar {m : Nat} (h : m < 10) :
    decDigitVal (Nat.digitChar m) = m := by
  interval_cases m <;> rfl

theorem toDigitsCore_append (fuel : Nat) :
    ∀ (n : Nat) (ds : List Char),
      Nat.toDigitsCore 10 fuel n ds = Nat.toDigitsCore 10 fuel n [] ++ ds := by
  induction fuel with
  | zero =>
      intro n ds
      rfl
  | succ fuel ih =>
      intro n ds
      simp only [Nat.toDigitsCore]
      by_cases h : n / 10 = 0
      · rw [if_pos h, if_pos h]
        rfl
      · rw [if_neg h, if_neg h, ih (n / 10) (Nat.digitChar (n % 10) :: ds),
          ih (n / 10) [Nat.digitChar (n % 10)], List.append_assoc]
        rfl

/-- The decimal value of a digit list. -/
def valOfDigits (l : List Char) : Nat := l.foldl (fun a c => 10 * a + decDigitVal c) 0

theorem valOfDigits_append_singleton (xs : List Char) (c : Char) :
    valOfDigits (xs ++ [c]) = 10 * valOfDigits xs + decDigitVal c := by
  simp [valOfDigits, List.foldl_append]

theorem valOfDigits_toDigitsCore :
    ∀ n fuel : Nat, n < fuel → valOfDigits (Nat.toDigitsCore 10 fuel n []) = n := by
  intro n
  induction n using Nat.strong_induction_on with
  | _ n ih =>
      intro fuel hfuel
      cases fuel with
      | zero => omega
      | succ fuel =>
          simp only [Nat.toDigitsCore]
          by_cases h : n / 10 = 0
          · rw [if_pos h]
            have hn10 : n < 10 := by
              rcases Nat.eq_zero_or_pos n with rfl | hpos
              · omega
              · exact (Nat.div_eq_zero_iff (by omega)).mp h
            have hm : n % 10 = n := Nat.mod_eq_of_lt hn10
            simp [valOfDigits, decDigitVal_digitChar (hm ▸ Nat.mod_lt n (by omega)), hm]
          · rw [if_neg h]
            have hge : 10 ≤ n := by
              by_contra hc
              exact h ((Nat.div_eq_zero_iff (by omega)).mpr (by omega))
            have hdiv_lt : n / 10 < n := Nat.div_lt_self (by omega) (by omega)
            rw [toDigitsCore_append, valOfDigits_append_singleton,
              ih (n / 10) hdiv_lt fuel (by omega),
              decDigitVal_digitChar (Nat.mod_lt n (by omega))]
            omega

/-- `Nat.repr` is injective (at the character-list level). -/
theorem repr_data_inj {m n : Nat} (h : (Nat.repr m).data = (Nat.repr n).data) :
    m = n := by
  have hl : Nat.toDigitsCore 10 (m + 1) m [] = Nat.toDigitsCore 10 (n + 1) n [] := h
  have h1 := valOfDigits_toDigitsCore m (m + 1) (Nat.lt_succ_self m)
  have h2 := valOfDigits_toDigitsCore n (n + 1) (Nat.lt_succ_self n)
  rw [← h1, ← h2, hl]

/-- The i-th candidate the loop tries (for `i ≥ 1`). -/
def candidate (base : String) (i : Nat) : String := base ++ "_" ++ Nat.repr i

theorem candidate_inj {base : String} {i j : Nat}
    (h : candidate base i = candidate base j) : i = j := by
  have hd := congrArg String.data h
  simp only [candidate, String.data_append, List.append_assoc] at hd
  exact repr_data_inj (List.append_cancel_left (List.append_cancel_left hd))

theorem candidate_ne_base {base : String} {i : Nat} : candidate base i ≠ base := by
  intro h
  have hd := congrArg String.data h
  simp only [candidate, String.data_append, List.append_assoc] at hd
  have hlen := congrArg List.length hd
  simp only [List.length_append, List.length_singleton] at hlen
  omega

/-- Case analysis on the fuelled `while` loop: either it returned a name it
verified to be unused, or it consumed candidates `counter, counter+1, …`
that were all in use (the last one possibly unverified when the fuel ran
out). -/
theorem uniqueNameLoop_cases (existing : List String) (base : String) :
    ∀ (fuel : Nat) (name : String) (counter : Nat),
      (uniqueNameLoop existing base fuel name counter = name ∧
        existing.contains name = false) ∨
      (existing.contains name = true ∧ ∃ t, t < fuel ∧
        uniqueNameLoop existing base fuel name counter = candidate base (counter + t) ∧
        (∀ u, u < t → existing.contains (candidate base (counter + u)) = true) ∧
        (existing.contains (candidate base (counter + t)) = false ∨ t + 1 = fuel)) ∨
      (fuel = 0 ∧ uniqueNameLoop existing base fuel name counter = name) := by
  intro fuel
  induction fuel with
  | zero =>
      intro name counter
      rcases hc : existing.contains name with _ | _
      · exact Or.inl ⟨rfl, rfl⟩
      · exact Or.inr (Or.inr ⟨rfl, rfl⟩)
  | succ fuel ih =>
      intro name counter
      rcases hc : existing.contains name with _ | _
      · refine Or.inl ⟨?_, rfl⟩
        unfold uniqueNameLoop
        rw [hc]
        rfl
      · right
        left
        refine ⟨rfl, ?_⟩
        have hstep : uniqueNameLoop existing base (fuel + 1) name counter
            = uniqueNameLoop existing base fuel (base ++ "_" ++ Nat.repr counter)
                (counter + 1) := by
          conv_lhs => rw [uniqueNameLoop]
          rw [hc]
          rfl
        rcases ih (base ++ "_" ++ Nat.repr counter) (counter + 1) with
          ⟨heq, hfree⟩ | ⟨hin, t, ht, heq, hall, hlast⟩ | ⟨hf0, heq⟩
        · refine ⟨0, by omega, ?_, ?_, ?_⟩
          · rw [hstep, heq]
            rfl
          · intro u hu
            omega
          · left
            simpa [candidate] using hfree
        · refine ⟨t + 1, by omega, ?_, ?_, ?_⟩
          · rw [hstep, heq]
            congr 1
            omega
          · intro u hu
            cases u with
            | zero => simpa [candidate] using hin
            | succ u =>
                have := hall u (by omega)
                have harith : counter + 1 + u = counter + (u + 1) := by omega
                rw [harith] at this
                exact this
          · rcases hlast with hfree | hfuel
            · left
              have harith : counter + 1 + t = counter + (t + 1) := by omega
              rw [harith] at hfree
              exact hfree
            · right
              omega
        · subst hf0
          refine ⟨0, by omega, ?_, ?_, Or.inr rfl⟩
          · rw [hstep, heq]
            rfl
          · intro u hu
            omega

/-- If `base` and the first `t = existing.length` suffixed candidates were
all in use, `existing` would contain `t + 1` pairwise-distinct strings —
impossible. -/
theorem candidates_pigeonhole (existing : List String) (base : String)
    (hbase : existing.contains base = true) (t : Nat)
    (hall : ∀ u, u < t → existing.contains (candidate base (1 + u)) = true)
    (hT : t = existing.length) : False := by
  set L := base :: (List.range t).map (fun u => candidate base (1 + u)) with hL
  have hnodup : L.Nodup := by
    rw [hL]
    refine List.nodup_cons.mpr ⟨?_, ?_⟩
    · intro hmem
      obtain ⟨u, _, he⟩ := List.mem_map.mp hmem
      exact candidate_ne_base he
    · refine List.Nodup.map ?_ (List.nodup_range t)
      intro a b hab
      have hij := candidate_inj hab
      omega
  have hsub : ∀ x ∈ L, x ∈ existing := by
    intro x hx
    rcases List.mem_cons.mp hx with rfl | hx2
    · exact List.elem_iff.mp hbase
    · obtain ⟨u, hu, rfl⟩ := List.mem_map.mp hx2
      exact List.elem_iff.mp (hall u (List.mem_range.mp hu))
  have hcard1 : L.toFinset.card = L.length := List.toFinset_card_of_nodup hnodup
  have hcard2 : L.toFinset ⊆ existing.toFinset := by
    intro x hx
    rw [List.mem_toFinset] at hx ⊢
    exact hsub x hx
  have hcard3 : existing.toFinset.card ≤ existing.length := existing.toFinset_card_le
  have hlen : L.length = t + 1 := by simp [hL]
  have hle := Finset.card_le_card hcard2
  omega

/-- The spec's concrete uniqueness example: entries `{"x", "x_1"}`. -/
def s9 : Store :=
  { initStore with
      transition_data := [("presets", J.obj [("x", J.num 1), ("x_1", J.num 2)])] }

/-- C9.  `unique_name(collection, base)` returns `base` when no non-comment
entry has that name; otherwise it returns `base_i` for the smallest positive
`i` such that `base_i` is not a non-comment entry name.  In particular, when
exactly `{"x", "x_1"}` exist, the result for base `"x"` is `"x_2"`. -/
theorem unique_name_spec :
    (∀ (side : Side) (s : Store) (base : String) (existing : List String) (r : String),
      get_preset_names side s = some existing →
      get_unique_preset_name side s base = some r →
      (existing.contains base = false → r = base) ∧
      (existing.contains base = true →
        ∃ i, 1 ≤ i ∧ r = base ++ "_" ++ Nat.repr i ∧
          existing.contains (base ++ "_" ++ Nat.repr i) = false ∧
          ∀ j, 1 ≤ j → j < i → existing.contains (base ++ "_" ++ Nat.repr j) = true)) ∧
    get_unique_transition_name s9 "x" = some "x_2" := by
  constructor
  · intro side s base existing r hn hr
    have hreq : r = uniqueNameLoop existing base (existing.length + 1) base 1 := by
      unfold get_unique_preset_name at hr
      rw [hn] at hr
      exact (Option.some.inj hr).symm
    rcases uniqueNameLoop_cases existing base (existing.length + 1) base 1 with
      ⟨heq, hfree⟩ | ⟨hin, t, ht, heq, hall, hlast⟩ | ⟨hf0, _⟩
    · constructor
      · intro _
        rw [hreq, heq]
      · intro hbase
        rw [hbase] at hfree
        exact Bool.noConfusion hfree
    · constructor
      · intro hbase
        rw [hbase] at hin
        exact Bool.noConfusion hin
      · intro _
        have hfree : existing.contains (candidate base (1 + t)) = false := by
          rcases hlast with hfree | hfuel
          · exact hfree
          · exfalso
            exact candidates_pigeonhole existing base hin t hall (by omega)
        refine ⟨1 + t, by omega, ?_, ?_, ?_⟩
        · rw [hreq, heq]
          rfl
        · exact hfree
        · intro j hj1 hjlt
          have hj := hall (j - 1) (by omega)
          have harith : 1 + (j - 1) = j := by omega
          rw [harith] at hj
          exact hj
    · exact absurd hf0 (by omega)
  · rfl

/-- Witness for C9: with entries `{"x","x_1"}`, an unused base is returned
unchanged, and the spec's example base `"x"` yields `"x_2"`. -/
theorem unique_name_spec_witness :
    ((get_unique_transition_name s9 "z").getD "") = "z" ∧
    get_unique_transition_name s9 "x" = some "x_2" :=
  ⟨(unique_name_spec.1 Side.transitions s9 "z" ["x", "x_1"]
      ((get_unique_transition_name s9 "z").getD "") rfl rfl).1 rfl,
   unique_name_spec.2⟩

/-! ## Claim C6: deep-copy-on-read

The pure model above cannot express aliasing, so this claim is settled on a
small reference-level model of Python's object semantics: entry values live
in mutable heap cells, the presets dict maps names to cell addresses, and
the read accessor returns the address of the stored entry — faithful to
`get_transition` / `get_shader` (lines 207-209 / 354-356), whose body
`self.transition_data.get("presets", {}).get(name)` performs *no* copy of
any kind (the module's `copy.deepcopy` calls are only in `push_undo`,
`undo`, `redo` and `duplicate_*`). -/

/-- A preset collection with one level of reference indirection: `presets`
maps entry names to heap addresses, `heap` maps addresses to the entry
values. -/
structure RefStore where
  presets : List (String × Nat)
  heap : List (Nat × J)

/-- Address of the entry stored under `name` (`presets.get(name)` at the
reference level). -/
def lookupAddr (rs : RefStore) (name : String) : Option Nat :=
  (rs.presets.find? (fun p => p.1 == name)).map Prod.snd

/-- The value in the heap cell at address `a`. -/
def heapGet (rs : RefStore) (a : Nat) : Option J :=
  (rs.heap.find? (fun c => c.1 == a)).map Prod.snd

/-- Reference-level embedding of `JsonManager.get_transition` (and the
textually identical `get_shader`): the caller receives the stored entry
object itself, i.e. its address. -/
def get_transition_ref (rs : RefStore) (name : String) : Option Nat :=
  lookupAddr rs name

/-- The caller mutating the object it received, outside any store API: a
heap update at that address. -/
def mutateThrough (rs : RefStore) (a : Nat) (v : J) : RefStore :=
  { rs with heap := rs.heap.map (fun c => if c.1 == a then (a, v) else c) }

/-- The store's own observable value of the entry stored under `name`. -/
def viewEntry (rs : RefStore) (name : String) : Option J :=
  match lookupAddr rs name with
  | some a => heapGet rs a
  | none => none

theorem find_update (h : List (Nat × J)) (a : Nat) (v : J)
    (hvalid : ((h.find? (fun c => c.1 == a)).map Prod.snd).isSome = true) :
    ((h.map (fun c => if c.1 == a then (a, v) else c)).find?
      (fun c => c.1 == a)).map Prod.snd = some v := by
  induction h with
  | nil => simp at hvalid
  | cons c cs ih =>
      rcases hb : (c.1 == a) with _ | _
      · rw [List.map_cons, if_neg (by simp [hb])]
        rw [@List.find?_cons_of_neg _ (fun c : Nat × J => c.1 == a) c
          (cs.map (fun c => if c.1 == a then (a, v) else c)) (by simp [hb])]
        rw [@List.find?_cons_of_neg _ (fun c : Nat × J => c.1 == a) c cs
          (by simp [hb])] at hvalid
        exact ih hvalid
      · rw [List.map_cons, if_pos hb]
        rw [@List.find?_cons_of_pos _ (fun c : Nat × J => c.1 == a) (a, v)
          (cs.map (fun c => if c.1 == a then (a, v) else c)) (by simp)]
        rfl

theorem heapGet_mutateThrough {rs : RefStore} {a : Nat} (v : J)
    (hvalid : (heapGet rs a).isSome = true) :
    heapGet (mutateThrough rs a v) a = some v :=
  find_update rs.heap a v hvalid

/-- A store with one transition entry `"t" ↦ 1`, stored in heap cell 0. -/
def rs6 : RefStore :=
  { presets := [("t", 0)], heap := [(0, J.num 1)] }

/-- Counterexample to C6 as stated: the value returned by the read accessor
is the stored entry itself, not a deep copy — mutating it changes the
store's internal collection state (here from `1` to `2`). -/
theorem deep_copy_on_read_counterexample :
    get_transition_ref rs6 "t" = some 0 ∧
    viewEntry rs6 "t" = some (J.num 1) ∧
    viewEntry (mutateThrough rs6 0 (J.num 2)) "t" = some (J.num 2) :=
  ⟨rfl, rfl, rfl⟩

/-- C6 amended.  The read accessor returns a *reference to* the stored
entry (no copy): whenever `get` returns an entry and the caller mutates it,
the store's internal collection state changes along with it.  (Deep copies
are made by the undo snapshot machinery and by `duplicate`, not on read.) -/
theorem get_returns_stored_reference (rs : RefStore) (name : String) (a : Nat) (v : J)
    (ha : get_transition_ref rs name = some a)
    (hvalid : (heapGet rs a).isSome = true) :
    viewEntry (mutateThrough rs a v) name = some v := by
  unfold viewEntry
  have hlook : lookupAddr (mutateThrough rs a v) name = some a := ha
  rw [hlook]
  exact heapGet_mutateThrough v hvalid

/-- Witness for the amended C6 at the counterexample's input. -/
theorem get_returns_stored_reference_witness :
    viewEntry (mutateThrough rs6 0 (J.num 2)) "t" = some (J.num 2) :=
  get_returns_stored_reference rs6 "t" 0 (J.num 2) rfl rfl
